import Mathlib

/-!
Shallow embedding of `src/lib.rs` of elysiumparser.

Strings are modelled as `List Char` (`Str`); the Rust string operations used by
the code (`contains`, `split`, `trim`, `trim_start_matches`, `trim_end_matches`,
`to_lowercase`) are given faithful models below.  `to_lowercase` is modelled
per-character (the inputs of interest are ASCII, where Rust's Unicode lowercase
agrees with per-character lowercasing), and `trim` uses `Char.isWhitespace`
(space, tab, CR, LF), which agrees with Rust's Unicode whitespace on ASCII.
-/

abbrev Str := List Char

/-- Model of Rust `s.starts_with(pat)` on our character lists: `pat` is an
initial segment of `s`. -/
def listStartsWith : Str → Str → Bool
  | _, [] => true
  | [], _ :: _ => false
  | c :: rest, p :: prest => c == p && listStartsWith rest prest

/-- Model of Rust `haystack.contains(pat)`: `pat` occurs contiguously in
`haystack` (an empty pattern always matches). -/
def containsSub : Str → Str → Bool
  | [], pat => pat.isEmpty
  | c :: rest, pat => listStartsWith (c :: rest) pat || containsSub rest pat

/-- Model of Rust `s.contains('c')` for a single-character pattern. -/
def containsChar (c : Char) (s : Str) : Bool :=
  s.any (· == c)

/-- Model of Rust `s.split('c')` (split on a single-character pattern):
the separators are removed and the pieces between them returned, so
splitting a string that starts/ends with the separator yields empty pieces. -/
def splitChar (c : Char) : Str → List Str
  | [] => [[]]
  | x :: xs =>
    if x = c then [] :: splitChar c xs
    else
      match splitChar c xs with
      | [] => [[x]]
      | p :: ps => (x :: p) :: ps

/-- Model of Rust `s.split(" & ")`: split on the literal three-character
pattern `" & "`, leftmost-first and non-overlapping. -/
def splitAmp : Str → List Str
  | [] => [[]]
  | ' ' :: '&' :: ' ' :: rest => [] :: splitAmp rest
  | c :: rest =>
    match splitAmp rest with
    | [] => [[c]]
    | p :: ps => (c :: p) :: ps

/-- Drop the longest suffix of `l` all of whose characters satisfy `p`. -/
def dropEndWhile (p : Char → Bool) (l : Str) : Str :=
  (l.reverse.dropWhile p).reverse

/-- Model of Rust `s.trim()`: remove leading and trailing whitespace. -/
def trimStr (l : Str) : Str :=
  dropEndWhile Char.isWhitespace (l.dropWhile Char.isWhitespace)

/-- Model of Rust `s.trim_start_matches(c)`: remove every leading occurrence
of the character `c` (Rust removes the matching prefix repeatedly). -/
def trimStartMatches (c : Char) (l : Str) : Str :=
  l.dropWhile (· == c)

/-- Model of Rust `s.trim_end_matches(c)`: remove every trailing occurrence
of the character `c`. -/
def trimEndMatches (c : Char) (l : Str) : Str :=
  dropEndWhile (· == c) l

/-- Model of Rust `s.to_lowercase()` (per-character; exact on ASCII). -/
def toLowerStr (l : Str) : Str :=
  l.map Char.toLower

/-- Rust `enum BooleanExpression { And(Vec<String>), Or(Vec<Box<BooleanExpression>>) }`
from `src/lib.rs`. -/
inductive BooleanExpression where
  | And : List Str → BooleanExpression
  | Or : List BooleanExpression → BooleanExpression

mutual

/-- Model of `BooleanExpression::matches` from `src/lib.rs`: an `And` matches when every
term is a substring of the text, an `Or` when some subexpression matches. -/
def BooleanExpression.matches : BooleanExpression → Str → Bool
  | .And terms, text => terms.all (fun term => containsSub text term)
  | .Or exprs, text => anyMatches exprs text

/-- The inner loop `exprs.iter().any(|expr| expr.matches(text))` of `BooleanExpression::matches`. -/
def anyMatches : List BooleanExpression → Str → Bool
  | [], _ => false
  | e :: rest, text => e.matches text || anyMatches rest text

end

mutual

/-- Decidable equality on `BooleanExpression` (hand-rolled because the type
nests `List`). -/
def decEqExpr : (a b : BooleanExpression) → Decidable (a = b)
  | .And a, .And b =>
    match List.hasDecEq a b with
    | isTrue h => isTrue (h ▸ rfl)
    | isFalse h => isFalse (fun hh => h (BooleanExpression.And.inj hh))
  | .And _, .Or _ => isFalse (fun h => BooleanExpression.noConfusion h)
  | .Or _, .And _ => isFalse (fun h => BooleanExpression.noConfusion h)
  | .Or a, .Or b =>
    match decEqExprList a b with
    | isTrue h => isTrue (h ▸ rfl)
    | isFalse h => isFalse (fun hh => h (BooleanExpression.Or.inj hh))

/-- Decidable equality on lists of `BooleanExpression`. -/
def decEqExprList : (a b : List BooleanExpression) → Decidable (a = b)
  | [], [] => isTrue rfl
  | [], _ :: _ => isFalse (fun h => List.noConfusion h)
  | _ :: _, [] => isFalse (fun h => List.noConfusion h)
  | x :: xs, y :: ys =>
    match decEqExpr x y, decEqExprList xs ys with
    | isTrue h1, isTrue h2 => isTrue (by rw [h1, h2])
    | isFalse h1, _ => isFalse (fun hh => h1 (List.cons.inj hh).1)
    | _, isFalse h2 => isFalse (fun hh => h2 (List.cons.inj hh).2)

end

instance : DecidableEq BooleanExpression := decEqExpr

/-- The cleaning step `part.trim_start_matches('(').trim_end_matches(')').trim()`
that `BooleanExpression::parse` applies to each disjunction part and to the
conjunction fallback input. -/
def cleanParens (s : Str) : Str :=
  trimStr (trimEndMatches ')' (trimStartMatches '(' s))

/-- The conjunction fallback of `BooleanExpression::parse` (`src/lib.rs`
lines 44-57): strip all enclosing parentheses and whitespace, then either
split on `" & "` into normalized terms or return the single normalized term. -/
def andFallback (expr : Str) : BooleanExpression :=
  let clean_expr := cleanParens expr
  if containsSub clean_expr " & ".data then
    BooleanExpression.And ((splitAmp clean_expr).map (fun s => toLowerStr (trimStr s)))
  else
    BooleanExpression.And [toLowerStr clean_expr]

/-- Model of `BooleanExpression::parse` with an explicit recursion budget.  The source
recursion is on the cleaned parts of the `'|'` split, each strictly shorter
than the input whenever the input contains `'|'`, so `parseFuel` with any
budget above the input length computes exactly the Rust function
(`parseFuel_congr` below proves the budget is irrelevant once large enough). -/
def parseFuel : Nat → Str → Option BooleanExpression
  | 0, _ => none
  | fuel + 1, expr =>
    if expr = [] then none
    else
      let orResult :=
        if containsChar '|' expr then
          let or_parts := (splitChar '|' expr).map trimStr
          let or_expressions := or_parts.filterMap (fun part => parseFuel fuel (cleanParens part))
          if !or_expressions.isEmpty then some (BooleanExpression.Or or_expressions) else none
        else none
      match orResult with
      | some r => some r
      | none => some (andFallback expr)

/-- Model of `BooleanExpression::parse` from `src/lib.rs`. -/
def BooleanExpression.parse (expr : Str) : Option BooleanExpression :=
  parseFuel (expr.length + 1) expr

/-- Rust `struct SearchTerm { keyword, additional_expression }` from `src/lib.rs`. -/
structure SearchTerm where
  keyword : Str
  additional_expression : Option BooleanExpression

/-- The per-term closure inside `process_reader` (`src/lib.rs` lines 233-248):
the line must contain the primary filter, then the keyword (when non-empty),
then satisfy the additional expression (when present). -/
def termCheck (line_filter lowercase_line : Str) (term : SearchTerm) : Bool :=
  if !(containsSub lowercase_line line_filter) then false
  else if !term.keyword.isEmpty && !(containsSub lowercase_line term.keyword) then false
  else
    match term.additional_expression with
    | some expr => expr.matches lowercase_line
    | none => true

/-- The disjunction `search_terms.iter().any(...)` of `process_reader`: the `is_match`
decision for one lowercased line. -/
def lineIsMatch (search_terms : List SearchTerm) (line_filter lowercase_line : Str) : Bool :=
  search_terms.any (fun term => termCheck line_filter lowercase_line term)

/-- Model of `process_reader` from `src/lib.rs`.  The reader's line iterator is
modelled as a list of `Option Str` (`none` is a line whose read/decode failed
and is skipped by the `if let Ok(line)` guard).  `writeOk k` tells whether the
`k`-th attempted append to the output sink succeeds (it models both acquiring
the output-file lock and the `writeln!` call; on failure the source only logs).
Returns the per-file match count together with the lines actually appended to
the sink (the original, non-lowercased lines, in order). -/
def processReader (search_terms : List SearchTerm) (line_filter : Str) :
    (Nat → Bool) → List (Option Str) → Nat × List Str
  | _, [] => (0, [])
  | writeOk, none :: rest => processReader search_terms line_filter writeOk rest
  | writeOk, some line :: rest =>
    if lineIsMatch search_terms line_filter (toLowerStr line) then
      let r := processReader search_terms line_filter (fun n => writeOk (n + 1)) rest
      (r.1 + 1, (if writeOk 0 then [line] else []) ++ r.2)
    else processReader search_terms line_filter writeOk rest

/-- The number of successfully read lines of `input` that match: the reference
value of the `file_match_count` computed by `process_reader`. -/
def matchCount (search_terms : List SearchTerm) (line_filter : Str)
    (input : List (Option Str)) : Nat :=
  (input.filterMap id).countP (fun line => lineIsMatch search_terms line_filter (toLowerStr line))

/-- Per-file match count of a sequential reference run in which every write
succeeds. -/
def perFileCount (search_terms : List SearchTerm) (line_filter : Str)
    (input : List (Option Str)) : Nat :=
  (processReader search_terms line_filter (fun _ => true) input).1

/-- Per-file match counts of processing each file sequentially, in worklist
order. -/
def perFileCounts (search_terms : List SearchTerm) (line_filter : Str)
    (files : List (List (Option Str))) : List Nat :=
  files.map (perFileCount search_terms line_filter)

/-- The cumulative `total_match_count` of `run_parser` (`src/lib.rs` lines
316-373): each spawned task processes its file (with its own pattern
`writeOkOf file` of write successes) and adds its per-file count to the shared
counter exactly once, under the mutex, in completion order
`completion_order`. -/
def parallelTotal (search_terms : List SearchTerm) (line_filter : Str)
    (writeOkOf : List (Option Str) → Nat → Bool)
    (completion_order : List (List (Option Str))) : Nat :=
  completion_order.foldl
    (fun acc file => acc + (processReader search_terms line_filter (writeOkOf file) file).1) 0

/-- Model of a directory entry's path as queried by `is_valid_log_file` and
`is_gz_file`: `is_file` is `path.is_file()`, `extension` is `path.extension()`,
`file_name` is `path.file_name().and_then(|f| f.to_str())` (the two options
collapsed; non-UTF-8 names are modelled as `none`), and `full` is the textual
path `path.to_string_lossy()`, also used for the comparison with
`Path::new(output_log)`. -/
structure FsPath where
  is_file : Bool
  extension : Option Str
  file_name : Option Str
  full : Str

/-- Model of `is_valid_log_file` from `src/lib.rs`: regular file, extension exactly
`log`, not the output path, filename not starting with `debug`
(case-insensitive), and lowercased filename contains the filename filter. -/
def is_valid_log_file (path : FsPath) (filename_filter : Str) (output_log : Str) : Bool :=
  if !path.is_file then false
  else
    match path.extension with
    | none => false
    | some extension =>
      if extension ≠ "log".data then false
      else if path.full = output_log then false
      else
        match path.file_name with
        | none => false
        | some filename_str =>
          if listStartsWith (toLowerStr filename_str) "debug".data then false
          else containsSub (toLowerStr filename_str) filename_filter

/-- Model of `is_gz_file` from `src/lib.rs`: regular file, extension exactly `gz`,
filename not starting with `debug` (case-insensitive).  It takes no filename
filter. -/
def is_gz_file (path : FsPath) : Bool :=
  if !path.is_file then false
  else
    match path.extension with
    | none => false
    | some extension =>
      if extension ≠ "gz".data then false
      else
        match path.file_name with
        | none => false
        | some filename_str =>
          if listStartsWith (toLowerStr filename_str) "debug".data then false
          else true

/-- The worklist admission test of `run_parser` (`src/lib.rs` lines 297-304):
`is_log || is_gz`, where the gz branch additionally requires the lowercased
full path string to contain the (already lowercased) filename filter — a check
the coordinator performs itself, outside `is_gz_file`. -/
def entersWorklist (path : FsPath) (filename_filter : Str) (output_log : Str) : Bool :=
  is_valid_log_file path filename_filter output_log ||
    (is_gz_file path && containsSub (toLowerStr path.full) filename_filter)

/-- Rust `struct ParserConfig` from `src/lib.rs` (string fields as `Str`). -/
structure ParserConfig where
  log_folder : Str
  output_log : Str
  filename_filter : Str
  line_filter : Str
  search_terms : List SearchTerm
  workers : Option Nat

/-- Rust `impl Default for ParserConfig` from `src/lib.rs`. -/
def ParserConfig.default : ParserConfig where
  log_folder := "logs/parser".data
  output_log := "logs/parser/output.log".data
  filename_filter := []
  line_filter := []
  search_terms := []
  workers := none

mutual

/-- Structural well-formedness actually guaranteed by `BooleanExpression::parse`:
every `And` node holds at least one term (possibly the empty string) and every
`Or` node holds at least one subexpression. -/
def wellFormed : BooleanExpression → Bool
  | .And terms => !terms.isEmpty
  | .Or exprs => !exprs.isEmpty && wellFormedList exprs

/-- Conjunction of `wellFormed` over every expression of a list. -/
def wellFormedList : List BooleanExpression → Bool
  | [] => true
  | e :: rest => wellFormed e && wellFormedList rest

end

mutual

/-- Modelled from the spec: the claimed invariant that every `All` (`And`)
node holds at least one NON-EMPTY term after normalization and every `Any`
(`Or`) node holds at least one subexpression. -/
def claimedInvariant : BooleanExpression → Bool
  | .And terms => terms.any (fun t => !t.isEmpty)
  | .Or exprs => !exprs.isEmpty && claimedInvariantList exprs

/-- Conjunction of `claimedInvariant` over every expression of a list. -/
def claimedInvariantList : List BooleanExpression → Bool
  | [] => true
  | e :: rest => claimedInvariant e && claimedInvariantList rest

end

/-- Concrete search term used by witnesses: keyword `error`, no expression. -/
def exTerm : SearchTerm := ⟨"error".data, none⟩

/-- Concrete file contents used by witnesses: two readable lines, one match. -/
def exFileA : List (Option Str) := [some "ERROR alpha".data, some "all good".data]

/-- Concrete file contents used by witnesses: one readable matching line. -/
def exFileB : List (Option Str) := [some "Error beta".data]

/-- Concrete path of a `.log` file whose name starts with `debug`. -/
def debugLogPath : FsPath :=
  ⟨true, some "log".data, some "debug_app.log".data, "logs/parser/debug_app.log".data⟩

/-- Concrete path of the `.log` file `app_test.log`. -/
def appTestLogPath : FsPath :=
  ⟨true, some "log".data, some "app_test.log".data, "logs/parser/app_test.log".data⟩

/-- Concrete path equal to the default configured output log. -/
def outputLogPath : FsPath :=
  ⟨true, some "log".data, some "output.log".data, "logs/parser/output.log".data⟩

/-- Concrete path of a `.gz` file. -/
def appGzPath : FsPath :=
  ⟨true, some "gz".data, some "app.log.gz".data, "logs/parser/app.log.gz".data⟩

example : BooleanExpression.matches (.Or [.And ["ab".data], .And ["cd".data]]) "xxcdy".data = true := by decide
example : BooleanExpression.parse "(database & connection) | (timeout)".data =
    some (.Or [.And ["database".data, "connection".data], .And ["timeout".data]]) := by decide
example : BooleanExpression.parse "((t))".data = some (.And ["t".data]) := by decide
example : BooleanExpression.parse "(".data = some (.And [[]]) := by decide
example : BooleanExpression.parse "|".data = some (.And ["|".data]) := by decide
example : BooleanExpression.parse "".data = none := by decide
example : containsSub "hello world".data "o w".data = true := by decide
example : splitAmp "a & b & c".data = ["a".data, "b".data, "c".data] := by decide
example : splitChar '|' "a|b||".data = ["a".data, "b".data, [], []] := by decide
example : trimStr "  ab c  ".data = "ab c".data := by decide
example : trimStartMatches '(' "((a))".data = "a))".data := by decide

/-! ### Helper lemmas -/

theorem length_dropEndWhile_le (p : Char → Bool) (l : Str) :
    (dropEndWhile p l).length ≤ l.length := by
  unfold dropEndWhile
  calc (l.reverse.dropWhile p).reverse.length
      = (l.reverse.dropWhile p).length := List.length_reverse _
    _ ≤ l.reverse.length := (l.reverse.dropWhile_sublist p).length_le
    _ = l.length := List.length_reverse _

theorem length_trimStr_le (l : Str) : (trimStr l).length ≤ l.length :=
  le_trans (length_dropEndWhile_le _ _) ((l.dropWhile_sublist _).length_le)

theorem length_cleanParens_le (l : Str) : (cleanParens l).length ≤ l.length := by
  unfold cleanParens trimEndMatches trimStartMatches
  exact le_trans (length_trimStr_le _)
    (le_trans (length_dropEndWhile_le _ _) ((l.dropWhile_sublist _).length_le))

theorem splitChar_ne_nil (c : Char) (l : Str) : splitChar c l ≠ [] := by
  cases l with
  | nil => simp [splitChar]
  | cons x xs =>
    unfold splitChar
    by_cases hx : x = c
    · simp [hx]
    · rw [if_neg hx]
      cases h : splitChar c xs <;> simp

theorem length_mem_splitChar (c : Char) (l : Str) (p : Str) (hp : p ∈ splitChar c l) :
    p.length ≤ l.length ∧ (containsChar c l = true → p.length < l.length) := by
  induction l generalizing p with
  | nil =>
    simp [splitChar] at hp
    subst hp
    simp [containsChar]
  | cons x xs ih =>
    simp only [splitChar] at hp
    by_cases hx : x = c
    · rw [if_pos hx] at hp
      rcases List.mem_cons.mp hp with h | h
      · subst h
        constructor
        · simp
        · intro _; simp
      · have := (ih p h).1
        constructor
        · exact le_trans this (by simp)
        · intro _; exact lt_of_le_of_lt this (by simp)
    · rw [if_neg hx] at hp
      obtain ⟨q, qs, hq⟩ : ∃ q qs, splitChar c xs = q :: qs := by
        cases h : splitChar c xs with
        | nil => exact absurd h (splitChar_ne_nil c xs)
        | cons q qs => exact ⟨q, qs, rfl⟩
      rw [hq] at hp
      have hcontains : containsChar c (x :: xs) = true → containsChar c xs = true := by
        intro h
        unfold containsChar at h ⊢
        simp only [List.any_cons] at h
        rcases Bool.or_eq_true_iff.mp h with h | h
        · exact absurd (by simpa using h) hx
        · exact h
      rcases List.mem_cons.mp hp with h | h
      · subst h
        have hqmem : q ∈ splitChar c xs := by rw [hq]; exact List.mem_cons_self _ _
        constructor
        · simpa using Nat.succ_le_succ (ih q hqmem).1
        · intro hc
          simpa using Nat.succ_lt_succ ((ih q hqmem).2 (hcontains hc))
      · have hmem : p ∈ splitChar c xs := by rw [hq]; exact List.mem_cons_of_mem _ h
        have := (ih p hmem).1
        constructor
        · exact le_trans this (by simp)
        · intro _; exact lt_of_le_of_lt this (by simp)

theorem splitAmp_ne_nil (l : Str) : splitAmp l ≠ [] := by
  induction l using splitAmp.induct with
  | case1 => simp [splitAmp.eq_1]
  | case2 rest ih => simp [splitAmp.eq_2]
  | case3 c rest h hnil ih => rw [splitAmp.eq_3 c rest h, hnil]; simp
  | case4 c rest h p ps hps ih => rw [splitAmp.eq_3 c rest h, hps]; simp

theorem parseFuel_congr (f f' : Nat) (expr : Str)
    (hf : expr.length < f) (hf' : expr.length < f') :
    parseFuel f expr = parseFuel f' expr := by
  induction f generalizing f' expr with
  | zero => omega
  | succ f ih =>
    cases f' with
    | zero => omega
    | succ f' =>
      by_cases he : expr = []
      · subst he; simp [parseFuel]
      · simp only [parseFuel]
        rw [if_neg he, if_neg he]
        by_cases hc : containsChar '|' expr
        · have hlist : ((splitChar '|' expr).map trimStr).filterMap
              (fun part => parseFuel f (cleanParens part)) =
              ((splitChar '|' expr).map trimStr).filterMap
              (fun part => parseFuel f' (cleanParens part)) := by
            apply List.filterMap_congr
            intro part hpart
            obtain ⟨p0, hp0, rfl⟩ := List.mem_map.mp hpart
            have hlen := (length_mem_splitChar '|' expr p0 hp0).2 hc
            have h1 : (cleanParens (trimStr p0)).length ≤ p0.length :=
              le_trans (length_cleanParens_le _) (length_trimStr_le _)
            exact ih f' (cleanParens (trimStr p0)) (by omega) (by omega)
          rw [if_pos hc, if_pos hc, hlist]
        · rw [if_neg hc, if_neg hc]

theorem parse_eq_parseFuel (f : Nat) (expr : Str) (hf : expr.length < f) :
    BooleanExpression.parse expr = parseFuel f expr :=
  parseFuel_congr _ _ expr (by omega) hf

/-- Faithfulness: `BooleanExpression.parse` satisfies, literally, the recursion of the Rust
source: this discharges the explicit budget used to define it. -/
theorem parse_rec_eq (expr : Str) :
    BooleanExpression.parse expr =
      (if expr = [] then none
       else
         match
           (if containsChar '|' expr then
             (if !(((splitChar '|' expr).map trimStr).filterMap
                    (fun part => BooleanExpression.parse (cleanParens part))).isEmpty then
               some (BooleanExpression.Or (((splitChar '|' expr).map trimStr).filterMap
                 (fun part => BooleanExpression.parse (cleanParens part))))
             else none)
           else none) with
         | some r => some r
         | none => some (andFallback expr)) := by
  by_cases he : expr = []
  · subst he; simp [BooleanExpression.parse, parseFuel]
  · rw [BooleanExpression.parse]
    simp only [parseFuel]
    rw [if_neg he, if_neg he]
    by_cases hc : containsChar '|' expr
    · have hlist : ((splitChar '|' expr).map trimStr).filterMap
          (fun part => parseFuel expr.length (cleanParens part)) =
          ((splitChar '|' expr).map trimStr).filterMap
          (fun part => BooleanExpression.parse (cleanParens part)) := by
        apply List.filterMap_congr
        intro part hpart
        obtain ⟨p0, hp0, rfl⟩ := List.mem_map.mp hpart
        have hlen := (length_mem_splitChar '|' expr p0 hp0).2 hc
        have h1 : (cleanParens (trimStr p0)).length ≤ p0.length :=
          le_trans (length_cleanParens_le _) (length_trimStr_le _)
        exact (parse_eq_parseFuel expr.length (cleanParens (trimStr p0)) (by omega)).symm
      rw [if_pos hc, if_pos hc, hlist]
    · rw [if_neg hc, if_neg hc]

theorem wellFormedList_iff_all (l : List BooleanExpression) :
    wellFormedList l = true ↔ ∀ e ∈ l, wellFormed e = true := by
  induction l with
  | nil => simp [wellFormedList]
  | cons x xs ih =>
    simp only [wellFormedList, Bool.and_eq_true, ih, List.mem_cons]
    constructor
    · rintro ⟨h1, h2⟩ e (rfl | he)
      · exact h1
      · exact h2 e he
    · intro h
      exact ⟨h x (Or.inl rfl), fun e he => h e (Or.inr he)⟩

theorem wellFormed_andFallback (expr : Str) : wellFormed (andFallback expr) = true := by
  unfold andFallback
  by_cases h : containsSub (cleanParens expr) " & ".data = true
  · rw [if_pos h]
    simp only [wellFormed, Bool.not_eq_true', List.isEmpty_eq_false, Ne, List.map_eq_nil_iff]
    exact splitAmp_ne_nil _
  · rw [if_neg h]
    simp [wellFormed]

theorem parseFuel_wellFormed (f : Nat) (expr : Str) (b : BooleanExpression)
    (h : parseFuel f expr = some b) : wellFormed b = true := by
  induction f generalizing expr b with
  | zero => simp [parseFuel] at h
  | succ f ih =>
    simp only [parseFuel] at h
    by_cases he : expr = []
    · rw [if_pos he] at h; exact absurd h (by simp)
    · rw [if_neg he] at h
      by_cases hc : containsChar '|' expr
      · rw [if_pos hc] at h
        by_cases hL : (((splitChar '|' expr).map trimStr).filterMap
            (fun part => parseFuel f (cleanParens part))).isEmpty
        · rw [hL] at h
          simp only [Bool.not_true, if_neg (by simp : ¬ (false = true))] at h
          have hb : b = andFallback expr := by
            cases h; rfl
          rw [hb]; exact wellFormed_andFallback expr
        · rw [Bool.not_eq_true] at hL
          rw [hL] at h
          simp only [Bool.not_false, if_pos rfl] at h
          have hb : b = BooleanExpression.Or (((splitChar '|' expr).map trimStr).filterMap
              (fun part => parseFuel f (cleanParens part))) := by
            cases h; rfl
          rw [hb]
          simp only [wellFormed, Bool.and_eq_true, wellFormedList_iff_all]
          constructor
          · rw [hL]; rfl
          · intro e he
            obtain ⟨part, _, hpart⟩ := List.mem_filterMap.mp he
            exact ih (cleanParens part) e hpart
      · rw [if_neg hc] at h
        have hb : b = andFallback expr := by
          cases h; rfl
        rw [hb]; exact wellFormed_andFallback expr

theorem termCheck_eq_true_iff (line_filter lowercase_line : Str) (term : SearchTerm) :
    termCheck line_filter lowercase_line term = true ↔
      containsSub lowercase_line line_filter = true ∧
      (term.keyword = [] ∨ containsSub lowercase_line term.keyword = true) ∧
      (∀ expr, term.additional_expression = some expr →
        expr.matches lowercase_line = true) := by
  obtain ⟨kw, addl⟩ := term
  unfold termCheck
  by_cases hf : containsSub lowercase_line line_filter = true
  · by_cases hk : kw.isEmpty = true
    · have hkw : kw = [] := List.isEmpty_iff.mp hk
      subst hkw
      cases addl with
      | none => simp [hf]
      | some expr => simp [hf]
    · have hkwne : kw ≠ [] := by simpa [List.isEmpty_iff] using hk
      by_cases hcw : containsSub lowercase_line kw = true
      · cases addl with
        | none => simp [hf, hk, hcw]
        | some expr => simp [hf, hk, hcw]
      · cases addl with
        | none => simp [hf, hk, hcw, hkwne]
        | some expr => simp [hf, hk, hcw, hkwne]
  · simp [hf]

theorem lineIsMatch_iff (search_terms : List SearchTerm) (line_filter lowercase_line : Str) :
    lineIsMatch search_terms line_filter lowercase_line = true ↔
      ∃ term ∈ search_terms, termCheck line_filter lowercase_line term = true := by
  unfold lineIsMatch
  exact List.any_eq_true

theorem processReader_fst (search_terms : List SearchTerm) (line_filter : Str)
    (writeOk : Nat → Bool) (input : List (Option Str)) :
    (processReader search_terms line_filter writeOk input).1 =
      matchCount search_terms line_filter input := by
  induction input generalizing writeOk with
  | nil => rfl
  | cons head rest ih =>
    cases head with
    | none => simpa [processReader, matchCount] using ih writeOk
    | some line =>
      by_cases h : lineIsMatch search_terms line_filter (toLowerStr line) = true
      · simp [processReader, matchCount, h, ih]
      · simp only [Bool.not_eq_true] at h
        simp [processReader, matchCount, h, ih]

theorem processReader_nil_terms (line_filter : Str) (writeOk : Nat → Bool)
    (input : List (Option Str)) :
    processReader [] line_filter writeOk input = (0, []) := by
  induction input generalizing writeOk with
  | nil => rfl
  | cons head rest ih =>
    cases head with
    | none => simpa [processReader] using ih writeOk
    | some line =>
      have hm : lineIsMatch [] line_filter (toLowerStr line) = false := rfl
      simp [processReader, hm, ih]

theorem foldl_add_eq_sum (g : List (Option Str) → Nat) (l : List (List (Option Str))) (acc : Nat) :
    l.foldl (fun a x => a + g x) acc = acc + (l.map g).sum := by
  induction l generalizing acc with
  | nil => simp
  | cons x xs ih => simp [ih, Nat.add_assoc]

theorem parallelTotal_eq_sum_map (search_terms : List SearchTerm) (line_filter : Str)
    (writeOkOf : List (Option Str) → Nat → Bool) (completion_order : List (List (Option Str))) :
    parallelTotal search_terms line_filter writeOkOf completion_order =
      (completion_order.map (fun file => matchCount search_terms line_filter file)).sum := by
  unfold parallelTotal
  rw [foldl_add_eq_sum]
  simp only [processReader_fst, Nat.zero_add]

theorem perFileCounts_eq_map_matchCount (search_terms : List SearchTerm) (line_filter : Str)
    (files : List (List (Option Str))) :
    perFileCounts search_terms line_filter files =
      files.map (fun file => matchCount search_terms line_filter file) := by
  unfold perFileCounts perFileCount
  simp only [processReader_fst]

theorem is_valid_log_file_false_of_gz (path : FsPath) (filename_filter output_log : Str)
    (hext : path.extension = some "gz".data) :
    is_valid_log_file path filename_filter output_log = false := by
  unfold is_valid_log_file
  cases hf : path.is_file
  · rfl
  · rw [Bool.not_true, if_neg Bool.false_ne_true]
    simp only [hext]
    rw [if_pos (by decide : ("gz".data : Str) ≠ "log".data)]

/-! ### Claims -/

/-- C1: a configured set of search terms matches a lowercased line iff at
least one term matches, where one term matches iff (a) the line contains the
line filter as a substring (an empty filter always passes), (b) the term's
keyword is empty or the line contains it, and (c) the term has no additional
expression or the expression evaluates to true on the line. -/
theorem c1_terms_match_iff (search_terms : List SearchTerm) (line_filter lowercase_line : Str) :
    lineIsMatch search_terms line_filter lowercase_line = true ↔
      ∃ term ∈ search_terms,
        containsSub lowercase_line line_filter = true ∧
        (term.keyword = [] ∨ containsSub lowercase_line term.keyword = true) ∧
        (∀ expr, term.additional_expression = some expr →
          expr.matches lowercase_line = true) := by
  rw [lineIsMatch_iff]
  exact exists_congr fun term => and_congr_right fun _ => termCheck_eq_true_iff _ _ _

/-- C2: `parse "(database & connection) | (timeout)"` yields an `Or` of the
two `And`s `["database","connection"]` and `["timeout"]`; that expression
matches `"database connection error"` and `"timeout occurred"` but not
`"memory leak"`. -/
theorem c2_parse_and_evaluate :
    BooleanExpression.parse "(database & connection) | (timeout)".data =
      some (.Or [.And ["database".data, "connection".data], .And ["timeout".data]]) ∧
    (BooleanExpression.Or [.And ["database".data, "connection".data],
      .And ["timeout".data]]).matches "database connection error".data = true ∧
    (BooleanExpression.Or [.And ["database".data, "connection".data],
      .And ["timeout".data]]).matches "timeout occurred".data = true ∧
    (BooleanExpression.Or [.And ["database".data, "connection".data],
      .And ["timeout".data]]).matches "memory leak".data = false :=
  ⟨by decide, by decide, by decide, by decide⟩

/-- C3 (counterexample): `parse "("` succeeds and returns an `And` whose only
term is the empty string, so not every `And` node of a parse result holds a
non-empty term. -/
theorem c3_counterexample_empty_term :
    BooleanExpression.parse "(".data = some (.And [[]]) ∧
    claimedInvariant (.And [[]]) = false :=
  ⟨by decide, by decide⟩

/-- C3 (amended): every parse result is well formed in the weaker sense that
every `And` node holds at least one term (possibly empty) and every `Or` node
holds at least one subexpression. -/
theorem c3_amended_parse_wellFormed (expr : Str) (b : BooleanExpression)
    (h : BooleanExpression.parse expr = some b) : wellFormed b = true :=
  parseFuel_wellFormed _ expr b h

/-- Witness for C3 (amended) at the concrete input `"x"`. -/
theorem c3_amended_witness :
    BooleanExpression.parse "x".data = some (.And ["x".data]) ∧
    wellFormed (.And ["x".data]) = true :=
  ⟨by decide, c3_amended_parse_wellFormed "x".data (.And ["x".data]) (by decide)⟩

/-- C4 (counterexample): parsing `"((t))"` strips BOTH layers of parentheses,
producing the bare term `"t"`, not the claimed `"(t)"` with the inner
parentheses kept. -/
theorem c4_counterexample_double_parens :
    BooleanExpression.parse "((t))".data = some (.And ["t".data]) ∧
    BooleanExpression.parse "((t))".data ≠ some (.And ["(t)".data]) :=
  ⟨by decide, by decide⟩

/-- C4 (amended): the cleaning step `cleanParens` that `parse` applies to each
disjunction part and to the conjunction fallback input removes EVERY leading
`'('` and EVERY trailing `')'` (plus surrounding whitespace), not just one
layer; in particular `"((t))"` parses to the single bare term `"t"`. -/
theorem c4_amended_strip_all_layers :
    (∀ s : Str, cleanParens ('(' :: s) = cleanParens s) ∧
    (∀ s : Str, cleanParens (s ++ [')']) = cleanParens s) ∧
    BooleanExpression.parse "((t))".data = some (.And ["t".data]) := by
  refine ⟨?_, ?_, by decide⟩
  · intro s
    unfold cleanParens trimStartMatches
    rw [List.dropWhile_cons]
    simp
  · intro s
    have hA : (s ++ [')']).dropWhile (· == '(') = s.dropWhile (· == '(') ++ [')'] := by
      rw [List.dropWhile_append]
      by_cases h : (s.dropWhile (· == '(')).isEmpty
      · rw [if_pos h, List.isEmpty_iff.mp h]
        rfl
      · rw [if_neg h]
    have hB : ∀ x : Str, dropEndWhile (· == ')') (x ++ [')']) = dropEndWhile (· == ')') x := by
      intro x
      unfold dropEndWhile
      rw [List.reverse_append]
      simp [List.dropWhile_cons]
    unfold cleanParens trimStartMatches trimEndMatches
    rw [hA, hB]

/-- C5: a plain file whose filename starts with `debug` (case-insensitively) is
excluded for every filename filter; `app_test.log` with filter `"app"` is
included; and a path equal to the configured output path is excluded even with
a `.log` extension and a matching filter. -/
theorem c5_plain_file_eligibility :
    (∀ (path : FsPath) (filename_filter output_log fn : Str),
        path.file_name = some fn →
        listStartsWith (toLowerStr fn) "debug".data = true →
        is_valid_log_file path filename_filter output_log = false) ∧
    is_valid_log_file appTestLogPath "app".data "logs/parser/output.log".data = true ∧
    (∀ (path : FsPath) (filename_filter : Str),
        is_valid_log_file path filename_filter path.full = false) := by
  refine ⟨?_, by decide, ?_⟩
  · intro path filename_filter output_log fn hfn hdbg
    unfold is_valid_log_file
    cases hf : path.is_file
    · rfl
    · rw [Bool.not_true, if_neg Bool.false_ne_true]
      split
      · rfl
      · split
        · rfl
        · split
          · rfl
          · simp only [hfn]
            rw [if_pos hdbg]
  · intro path filename_filter
    unfold is_valid_log_file
    cases hf : path.is_file
    · rfl
    · rw [Bool.not_true, if_neg Bool.false_ne_true]
      split
      · rfl
      · split
        · rfl
        · rw [if_pos rfl]

/-- Witness for C5 at the concrete paths `debug_app.log`, `app_test.log` and
the configured output path. -/
theorem c5_witness :
    is_valid_log_file debugLogPath "app".data "logs/parser/output.log".data = false ∧
    is_valid_log_file appTestLogPath "app".data "logs/parser/output.log".data = true ∧
    is_valid_log_file outputLogPath "app".data "logs/parser/output.log".data = false :=
  ⟨c5_plain_file_eligibility.1 debugLogPath "app".data "logs/parser/output.log".data
      "debug_app.log".data rfl (by decide),
   c5_plain_file_eligibility.2.1,
   c5_plain_file_eligibility.2.2 outputLogPath "app".data⟩

/-- C6: a `.gz` file enters the worklist iff `is_gz_file` holds AND the
lowercased full path string (not just the filename) contains the filename
filter; the containment conjunct is the coordinator's own, outside the
predicate `is_gz_file`, which takes no filter. -/
theorem c6_gz_worklist (path : FsPath) (filename_filter output_log : Str)
    (hext : path.extension = some "gz".data) :
    entersWorklist path filename_filter output_log =
      (is_gz_file path && containsSub (toLowerStr path.full) filename_filter) := by
  unfold entersWorklist
  rw [is_valid_log_file_false_of_gz path filename_filter output_log hext]
  rw [Bool.false_or]

/-- Witness for C6 at a concrete `.gz` path. -/
theorem c6_witness :
    entersWorklist appGzPath "app".data "logs/parser/output.log".data =
      (is_gz_file appGzPath && containsSub (toLowerStr appGzPath.full) "app".data) :=
  c6_gz_worklist appGzPath "app".data "logs/parser/output.log".data rfl

/-- C7: the per-file match count returned by `process_reader` equals the number
of successfully read lines that match, independently of which appends to the
output sink succeed: a write failure is not propagated, processing continues,
and the match is still counted. -/
theorem c7_count_regardless_of_write_failures (search_terms : List SearchTerm)
    (line_filter : Str) (writeOk : Nat → Bool) (input : List (Option Str)) :
    (processReader search_terms line_filter writeOk input).1 =
      matchCount search_terms line_filter input :=
  processReader_fst search_terms line_filter writeOk input

/-- C8: whatever order the parallel workers complete in (any permutation of
the worklist), the cumulative match counter equals the sum of the per-file
match counts of a sequential run over the same files: parallel execution
neither loses nor double-counts matches. -/
theorem c8_parallel_total_eq_sequential_sum (search_terms : List SearchTerm)
    (line_filter : Str) (writeOkOf : List (Option Str) → Nat → Bool)
    (files completion_order : List (List (Option Str)))
    (h : completion_order.Perm files) :
    parallelTotal search_terms line_filter writeOkOf completion_order =
      (perFileCounts search_terms line_filter files).sum := by
  rw [parallelTotal_eq_sum_map, perFileCounts_eq_map_matchCount]
  exact (h.map _).sum_eq

/-- Witness for C8: two concrete files completing in reversed order. -/
theorem c8_witness :
    parallelTotal [exTerm] [] (fun _ _ => true) [exFileB, exFileA] =
      (perFileCounts [exTerm] [] [exFileA, exFileB]).sum :=
  c8_parallel_total_eq_sequential_sum [exTerm] [] (fun _ _ => true)
    [exFileA, exFileB] [exFileB, exFileA] (by decide)

/-- C9: `BooleanExpression::parse` returns `None` exactly on the empty string:
every non-empty input, including strings of separators, parentheses or
whitespace only, falls through to the single-term `And` fallback. -/
theorem c9_parse_none_iff_empty (expr : Str) :
    BooleanExpression.parse expr = none ↔ expr = [] := by
  constructor
  · intro h
    by_contra hne
    rw [BooleanExpression.parse] at h
    simp only [parseFuel] at h
    rw [if_neg hne] at h
    split at h <;> simp_all
  · intro h
    subst h
    rfl

/-- C10: with no configured search terms (as in `ParserConfig::default`), no
line ever matches: `process_reader` returns count 0 and writes nothing, and
the cumulative total of any run is 0. -/
theorem c10_empty_terms_no_matches :
    ParserConfig.default.search_terms = [] ∧
    (∀ (line_filter : Str) (writeOk : Nat → Bool) (input : List (Option Str)),
        processReader [] line_filter writeOk input = (0, [])) ∧
    (∀ (line_filter : Str) (writeOkOf : List (Option Str) → Nat → Bool)
        (completion_order : List (List (Option Str))),
        parallelTotal [] line_filter writeOkOf completion_order = 0) := by
  refine ⟨rfl, processReader_nil_terms, ?_⟩
  intro line_filter writeOkOf completion_order
  rw [parallelTotal_eq_sum_map]
  have hzero : ∀ file : List (Option Str), matchCount [] line_filter file = 0 := by
    intro file
    unfold matchCount
    simp [lineIsMatch]
  simp [hzero]
